import Mathlib

/-!
Verification of the goyacc parser generator core (main.go).

We shallowly embed the generated-parser data model and the generator's
table-construction logic:

* `Action`, `rawArg`, `scanArgs`, `tabOfs` — the per-cell integer encoding and
  the global offset computation of `main1` (the loop over `p.Table` that
  maintains `minArg`/`maxArg`, the later `minArg--`, and `yyTabOfs`).
* `buildRow` / `decodeRow` — the sparse row emission (Go composite literal with
  index markers, absent positions zero) and the runtime lookup
  `if lookahead < len(row) { arg = int(row[lookahead]); if arg != 0 { arg += yyTabOfs } }`.
* `tbits` — the cell-width selection `switch mathutil.BitLen(maxArg - minArg + 1)`.
* the symbol translator (`symsUsed.Less`, sorting, `xlat`), the reduction
  catalog, the error-example lookup, the action stitcher, and the runtime
  automaton `yyParse` as a step function on explicit parser states.

Machine integers are modelled as `Int`/`Nat`; the width theorems show the
stored values fit the chosen cell width, justifying this.
-/

namespace Goyacc

/-- One action cell of the grammar processor's table, as classified by
`act.Kind()` in main1: shift carries the target state, reduce the rule index,
and accept is the kind `a` that the encoder collapses to `0`. -/
inductive Action where
  | shift (target : Int)
  | reduce (rule : Int)
  | accept
deriving DecidableEq, Repr

/-- The raw integer encoding of an action before offsetting: shift target
as-is, reduce as negated rule index (`arg *= -1`), accept as `0`. -/
def rawArg : Action → Int
  | .shift t => t
  | .reduce r => -r
  | .accept => 0

/-- One step of main1's scan maintaining `minArg, maxArg = Min(minArg, arg),
Max(maxArg, arg)`; kind `a` is skipped (`continue`). -/
def scanArgs (p : Int × Int) (a : Action) : Int × Int :=
  match a with
  | .accept => p
  | _ => (min p.1 (rawArg a), max p.2 (rawArg a))

/-- A state's row as supplied by the grammar processor, already translated:
pairs of translated symbol id and action. -/
abbrev StateRow := List (Nat × Action)

/-- The whole action table, one row per automaton state. -/
abbrev Table := List StateRow

/-- All action cells of the table, in scan order. -/
def allActions (t : Table) : List Action :=
  (t.map (fun row => row.map Prod.snd)).flatten

/-- The `(minArg, maxArg)` pair after scanning every action of every state;
both start at `0` (`var minArg, maxArg int`). -/
def minMaxArg (t : Table) : Int × Int :=
  (allActions t).foldl scanArgs (0, 0)

/-- The global table offset `yyTabOfs`: after the scan, main1 executes
`minArg--`, so the offset is `minArg - 1` and the smallest real value maps
to `1`, freeing `0` as the empty cell. -/
def tabOfs (t : Table) : Int := (minMaxArg t).1 - 1

/-- The largest raw action value seen by the scan. -/
def maxArg0 (t : Table) : Int := (minMaxArg t).2

/-- The stored (offset-subtracted) cell value `arg - minArg`. -/
def encodeCell (ofs : Int) (a : Action) : Int := rawArg a - ofs

/-- The action recorded for symbol `s` in a state's cell list, if any. -/
def lookupCell (cells : StateRow) (s : Nat) : Option Action :=
  (cells.find? (fun c => c.1 == s)).map Prod.snd

/-- Length of the emitted dense row: the Go composite literal
`{xsym: v, ...}` ends at the largest emitted index, so its length is
`max + 1` for a nonempty cell set and `0` for an empty one. -/
def rowLen (cells : StateRow) : Nat :=
  match cells with
  | [] => 0
  | _ => ((cells.map Prod.fst).foldl max 0) + 1

/-- The dense row the generator emits for one state: position `s` holds the
stored value of the cell for symbol `s`, and every position without a
materialized cell holds `0` (Go's implicit zero value in the literal). -/
def buildRow (ofs : Int) (cells : StateRow) : List Int :=
  (List.range (rowLen cells)).map (fun s =>
    match lookupCell cells s with
    | some a => encodeCell ofs a
    | none => 0)

/-- The runtime action lookup of yyParse: `arg := 0; if lookahead < len(row)
{ arg = int(row[lookahead]); if arg != 0 { arg += yyTabOfs } }`. -/
def decodeRow (ofs : Int) (row : List Int) (la : Nat) : Int :=
  if h : la < row.length then
    let v := row.get ⟨la, h⟩
    if v = 0 then 0 else v + ofs
  else 0

/-- The width of the table cells: `tbits := 32; switch n :=
mathutil.BitLen(maxArg - minArg + 1); case n < 8: 8; case n < 16: 16`,
where at this point `minArg` already holds the decremented offset. -/
def tbits (t : Table) : Nat :=
  let n := (maxArg0 t - tabOfs t + 1).toNat.size
  if n < 8 then 8 else if n < 16 then 16 else 32

section ScanLemmas

theorem scan_fst_le_init (l : List Action) (p : Int × Int) :
    (l.foldl scanArgs p).1 ≤ p.1 := by
  induction l generalizing p with
  | nil => exact le_refl _
  | cons a l ih =>
    refine le_trans (ih (scanArgs p a)) ?_
    cases a <;> simp [scanArgs]

theorem init_le_scan_snd (l : List Action) (p : Int × Int) :
    p.2 ≤ (l.foldl scanArgs p).2 := by
  induction l generalizing p with
  | nil => exact le_refl _
  | cons a l ih =>
    refine le_trans ?_ (ih (scanArgs p a))
    cases a <;> simp [scanArgs]

theorem scan_fst_le_raw (l : List Action) (p : Int × Int) (a : Action)
    (ha : a ∈ l) (hna : a ≠ Action.accept) :
    (l.foldl scanArgs p).1 ≤ rawArg a := by
  induction l generalizing p with
  | nil => cases ha
  | cons b l ih =>
    rcases List.mem_cons.1 ha with h | h
    · subst h
      refine le_trans (scan_fst_le_init l (scanArgs p a)) ?_
      cases a with
      | accept => exact absurd rfl hna
      | shift t => simp [scanArgs, rawArg]
      | reduce r => simp [scanArgs, rawArg]
    · exact ih _ h

theorem raw_le_scan_snd (l : List Action) (p : Int × Int) (a : Action)
    (ha : a ∈ l) (hna : a ≠ Action.accept) :
    rawArg a ≤ (l.foldl scanArgs p).2 := by
  induction l generalizing p with
  | nil => cases ha
  | cons b l ih =>
    rcases List.mem_cons.1 ha with h | h
    · subst h
      refine le_trans ?_ (init_le_scan_snd l (scanArgs p a))
      cases a with
      | accept => exact absurd rfl hna
      | shift t => simp [scanArgs, rawArg]
      | reduce r => simp [scanArgs, rawArg]
    · exact ih _ h

/-- The offset is at most `-1`: the scan's minimum starts at `0` and the
generator then decrements it. -/
theorem tabOfs_le_neg_one (t : Table) : tabOfs t ≤ -1 := by
  have h := scan_fst_le_init (allActions t) (0, 0)
  unfold tabOfs minMaxArg
  omega

/-- The offset is strictly below every raw shift/reduce value of the table. -/
theorem tabOfs_lt_raw (t : Table) (a : Action) (ha : a ∈ allActions t)
    (hna : a ≠ Action.accept) : tabOfs t ≤ rawArg a - 1 := by
  have h := scan_fst_le_raw (allActions t) (0, 0) a ha hna
  unfold tabOfs minMaxArg
  omega

/-- Every action of the table encodes to a strictly positive stored value,
so `0` is unambiguous as the empty cell. -/
theorem encodeCell_pos (t : Table) (a : Action) (ha : a ∈ allActions t) :
    1 ≤ encodeCell (tabOfs t) a := by
  cases a with
  | accept =>
    have h := tabOfs_le_neg_one t
    simp only [encodeCell, rawArg]
    omega
  | shift tg =>
    have h := tabOfs_lt_raw t _ ha (by simp)
    simp only [encodeCell, rawArg] at h ⊢
    omega
  | reduce r =>
    have h := tabOfs_lt_raw t _ ha (by simp)
    simp only [encodeCell, rawArg] at h ⊢
    omega

end ScanLemmas

section RowLemmas

theorem init_le_foldl_max (l : List Nat) (n : Nat) : n ≤ l.foldl max n := by
  induction l generalizing n with
  | nil => exact le_refl _
  | cons c l ih => exact le_trans (le_max_left _ _) (ih _)

theorem le_foldl_max (l : List Nat) (n : Nat) (x : Nat) (hx : x ∈ l) :
    x ≤ l.foldl max n := by
  induction l generalizing n with
  | nil => cases hx
  | cons b l ih =>
    rcases List.mem_cons.1 hx with h | h
    · subst h
      exact le_trans (le_max_right _ _) (init_le_foldl_max l _)
    · exact ih _ h

theorem mem_lt_rowLen (cells : StateRow) (s : Nat) (a : Action)
    (h : (s, a) ∈ cells) : s < rowLen cells := by
  have hs : s ∈ cells.map Prod.fst := List.mem_map.2 ⟨(s, a), h, rfl⟩
  have hb := le_foldl_max (cells.map Prod.fst) 0 s hs
  cases cells with
  | nil => cases h
  | cons c l => simpa [rowLen] using Nat.lt_succ_of_le hb

theorem lookupCell_of_mem (cells : StateRow) (s : Nat) (a : Action)
    (hnd : (cells.map Prod.fst).Nodup) (h : (s, a) ∈ cells) :
    lookupCell cells s = some a := by
  induction cells with
  | nil => cases h
  | cons c l ih =>
    rcases List.mem_cons.1 h with hc | hc
    · subst hc
      rw [lookupCell, List.find?_cons_of_pos _ (by simp)]
      rfl
    · have hnd' := hnd
      rw [List.map_cons, List.nodup_cons] at hnd'
      have hne : c.1 ≠ s := by
        intro he
        exact hnd'.1 (he ▸ List.mem_map.2 ⟨(s, a), hc, rfl⟩)
      have hrec : lookupCell l s = some a := ih hnd'.2 hc
      rw [lookupCell, List.find?_cons_of_neg _ (by simp [hne])]
      exact hrec

theorem buildRow_length (ofs : Int) (cells : StateRow) :
    (buildRow ofs cells).length = rowLen cells := by
  simp [buildRow]

theorem buildRow_get (ofs : Int) (cells : StateRow) (s : Nat)
    (h : s < (buildRow ofs cells).length) :
    (buildRow ofs cells).get ⟨s, h⟩ =
      match lookupCell cells s with
      | some a => encodeCell ofs a
      | none => 0 := by
  simp [buildRow]

end RowLemmas

section RoundTrip

/-- Decoding the dense row at a materialized cell returns the cell's raw
action value. -/
theorem decodeRow_buildRow_mem (t : Table) (cells : StateRow) (s : Nat)
    (a : Action) (hc : cells ∈ t) (hnd : (cells.map Prod.fst).Nodup)
    (h : (s, a) ∈ cells) :
    decodeRow (tabOfs t) (buildRow (tabOfs t) cells) s = rawArg a := by
  have hlen : s < (buildRow (tabOfs t) cells).length := by
    rw [buildRow_length]
    exact mem_lt_rowLen cells s a h
  have hl : lookupCell cells s = some a := lookupCell_of_mem cells s a hnd h
  have hget : (buildRow (tabOfs t) cells).get ⟨s, hlen⟩ =
      encodeCell (tabOfs t) a := by
    rw [buildRow_get, hl]
  have hmem : a ∈ allActions t := by
    unfold allActions
    refine List.mem_flatten.2 ⟨cells.map Prod.snd, ?_, ?_⟩
    · exact List.mem_map.2 ⟨cells, hc, rfl⟩
    · exact List.mem_map.2 ⟨(s, a), h, rfl⟩
  have hpos := encodeCell_pos t a hmem
  unfold decodeRow
  rw [dif_pos hlen, hget, if_neg (by unfold encodeCell at hpos ⊢; omega)]
  unfold encodeCell
  ring

/-- Decoding at a symbol with no materialized cell yields the empty value. -/
theorem decodeRow_buildRow_none (ofs : Int) (cells : StateRow) (s : Nat)
    (h : lookupCell cells s = none) :
    decodeRow ofs (buildRow ofs cells) s = 0 := by
  unfold decodeRow
  split
  · next hlt =>
    rw [buildRow_get, h]
    simp
  · rfl

/-- C1: Encode/decode round-trip: for every (state, symbol) pair holding a
shift or reduce action (with the LR-invariant positive shift target and
positive rule index), encoding (shift as-is, reduce negated) minus the global
offset, then the runtime decode (re-adding the offset to a nonzero cell),
reproduces the action kind (by sign) and target exactly; and every symbol id
without a materialized cell in the row — including ids beyond the row's
length — decodes to the empty value `0`, never a spurious shift or reduce. -/
theorem C1_encode_decode_roundtrip (t : Table) (cells : StateRow)
    (hc : cells ∈ t) (hnd : (cells.map Prod.fst).Nodup) :
    (∀ s tg, (s, Action.shift tg) ∈ cells → 1 ≤ tg →
        0 < decodeRow (tabOfs t) (buildRow (tabOfs t) cells) s ∧
        decodeRow (tabOfs t) (buildRow (tabOfs t) cells) s = tg) ∧
    (∀ s r, (s, Action.reduce r) ∈ cells → 1 ≤ r →
        decodeRow (tabOfs t) (buildRow (tabOfs t) cells) s < 0 ∧
        -decodeRow (tabOfs t) (buildRow (tabOfs t) cells) s = r) ∧
    (∀ s, lookupCell cells s = none →
        decodeRow (tabOfs t) (buildRow (tabOfs t) cells) s = 0) := by
  refine ⟨?_, ?_, ?_⟩
  · intro s tg hmem htg
    have hd := decodeRow_buildRow_mem t cells s _ hc hnd hmem
    rw [hd]
    simp only [rawArg]
    exact ⟨by omega, by trivial⟩
  · intro s r hmem hr
    have hd := decodeRow_buildRow_mem t cells s _ hc hnd hmem
    rw [hd]
    simp only [rawArg]
    exact ⟨by omega, by omega⟩
  · intro s h
    exact decodeRow_buildRow_none _ cells s h

/-- A small concrete table used to witness the round-trip theorem. -/
def cellsW : StateRow := [(0, Action.shift 2), (2, Action.reduce 1)]

/-- The table holding `cellsW` as its first state row. -/
def tW : Table := [cellsW, []]

theorem C1_encode_decode_roundtrip_witness :
    (0 < decodeRow (tabOfs tW) (buildRow (tabOfs tW) cellsW) 0 ∧
      decodeRow (tabOfs tW) (buildRow (tabOfs tW) cellsW) 0 = 2) ∧
    (decodeRow (tabOfs tW) (buildRow (tabOfs tW) cellsW) 2 < 0 ∧
      -decodeRow (tabOfs tW) (buildRow (tabOfs tW) cellsW) 2 = 1) ∧
    decodeRow (tabOfs tW) (buildRow (tabOfs tW) cellsW) 7 = 0 := by
  have h := C1_encode_decode_roundtrip tW cellsW (by decide) (by decide)
  exact ⟨h.1 0 2 (by decide) (by decide), h.2.1 2 1 (by decide) (by decide),
    h.2.2 7 (by decide)⟩

end RoundTrip

section Width

/-- Every raw action value is bounded by the scanned maximum. -/
theorem raw_le_maxArg0 (t : Table) (a : Action) (ha : a ∈ allActions t) :
    rawArg a ≤ maxArg0 t := by
  by_cases hacc : a = Action.accept
  · subst hacc
    simpa [maxArg0, minMaxArg, rawArg] using
      init_le_scan_snd (allActions t) (0, 0)
  · have h := raw_le_scan_snd (allActions t) (0, 0) a ha hacc
    simpa [maxArg0, minMaxArg] using h

/-- The scanned maximum is nonnegative (it starts at `0`). -/
theorem maxArg0_nonneg (t : Table) : (0 : Int) ≤ maxArg0 t := by
  simpa [maxArg0, minMaxArg] using init_le_scan_snd (allActions t) (0, 0)

/-- C2 (amended): the width is picked by bit length of the span plus one —
8 bits exactly when `maxArg - offset + 1 < 2^7`, 16 bits exactly when
`2^7 ≤ maxArg - offset + 1 < 2^15`, else 32 — and the chosen width always
covers every stored cell value (strictly positive and below `2^width`,
the 32-bit case provided the span itself fits 32 bits); but this choice is
one bit more conservative than the smallest covering width of {8, 16, 32}. -/
theorem C2_width_selection (t : Table) :
    (tbits t = 8 ∨ tbits t = 16 ∨ tbits t = 32) ∧
    (tbits t = 8 ↔ maxArg0 t - tabOfs t + 1 < 2 ^ 7) ∧
    (tbits t = 16 ↔
      2 ^ 7 ≤ maxArg0 t - tabOfs t + 1 ∧ maxArg0 t - tabOfs t + 1 < 2 ^ 15) ∧
    (∀ a ∈ allActions t,
      1 ≤ encodeCell (tabOfs t) a ∧
      (maxArg0 t - tabOfs t + 1 ≤ 2 ^ 32 →
        encodeCell (tabOfs t) a < 2 ^ tbits t)) := by
  have hofs := tabOfs_le_neg_one t
  have hmax := maxArg0_nonneg t
  have hS0 : 0 ≤ maxArg0 t - tabOfs t + 1 := by omega
  have hkey : ∀ k : Nat,
      ((maxArg0 t - tabOfs t + 1).toNat.size ≤ k ↔
        maxArg0 t - tabOfs t + 1 < (2 : Int) ^ k) := by
    intro k
    rw [Nat.size_le, Int.toNat_lt hS0]
    norm_cast
  have htb : tbits t =
      if (maxArg0 t - tabOfs t + 1).toNat.size < 8 then 8
      else if (maxArg0 t - tabOfs t + 1).toNat.size < 16 then 16 else 32 := rfl
  have hbound : ∀ a ∈ allActions t,
      encodeCell (tabOfs t) a ≤ maxArg0 t - tabOfs t := by
    intro a ha
    have h2 := raw_le_maxArg0 t a ha
    unfold encodeCell
    omega
  have h7 := hkey 7
  have h15 := hkey 15
  by_cases h8 : (maxArg0 t - tabOfs t + 1).toNat.size < 8
  · have hS7 : maxArg0 t - tabOfs t + 1 < 2 ^ 7 := h7.1 (by omega)
    rw [htb, if_pos h8]
    refine ⟨Or.inl rfl, ⟨fun _ => hS7, fun _ => rfl⟩, ?_, ?_⟩
    · constructor
      · intro h16
        exact absurd h16 (by norm_num)
      · intro hx
        exfalso
        omega
    · intro a ha
      refine ⟨encodeCell_pos t a ha, fun _ => ?_⟩
      have hb := hbound a ha
      have e7 : (2 : Int) ^ 7 = 128 := by norm_num
      have e8 : (2 : Int) ^ 8 = 256 := by norm_num
      rw [e8]
      omega
  · by_cases h16 : (maxArg0 t - tabOfs t + 1).toNat.size < 16
    · have hS15 : maxArg0 t - tabOfs t + 1 < 2 ^ 15 := h15.1 (by omega)
      have hS7 : ¬ maxArg0 t - tabOfs t + 1 < 2 ^ 7 := by
        intro hx
        have := h7.2 hx
        omega
      rw [htb, if_neg h8, if_pos h16]
      refine ⟨Or.inr (Or.inl rfl), ?_, ?_, ?_⟩
      · constructor
        · intro h
          exact absurd h (by norm_num)
        · intro hx
          exact absurd hx hS7
      · exact ⟨fun _ => ⟨le_of_not_lt hS7, hS15⟩, fun _ => rfl⟩
      · intro a ha
        refine ⟨encodeCell_pos t a ha, fun _ => ?_⟩
        have hb := hbound a ha
        have e16 : (2 : Int) ^ 16 = 65536 := by norm_num
        have e15 : (2 : Int) ^ 15 = 32768 := by norm_num
        rw [e16]
        omega
    · have hS15 : ¬ maxArg0 t - tabOfs t + 1 < 2 ^ 15 := by
        intro hx
        have := h15.2 hx
        omega
      have hS7 : ¬ maxArg0 t - tabOfs t + 1 < 2 ^ 7 := by
        intro hx
        have e7 : (2 : Int) ^ 7 = 128 := by norm_num
        have e15 : (2 : Int) ^ 15 = 32768 := by norm_num
        exact hS15 (by omega)
      rw [htb, if_neg h8, if_neg h16]
      refine ⟨Or.inr (Or.inr rfl), ?_, ?_, ?_⟩
      · constructor
        · intro h
          exact absurd h (by norm_num)
        · intro hx
          exact absurd hx hS7
      · constructor
        · intro h
          exact absurd h (by norm_num)
        · intro hx
          exact absurd hx.2 hS15
      · intro a ha
        refine ⟨encodeCell_pos t a ha, fun hsp => ?_⟩
        have hb := hbound a ha
        have e32 : (2 : Int) ^ 32 = 4294967296 := by norm_num
        rw [e32]
        rw [e32] at hsp
        omega

end Width

section WidthCounterexample

/-- A table whose single cell is a shift to state 126: the largest stored
value is `127`, which fits in 8 bits, yet the generator selects 16. -/
def tC : Table := [[(0, Action.shift 126)]]

theorem C2_width_counterexample :
    tbits tC = 16 ∧
    maxArg0 tC - tabOfs tC = 127 ∧
    encodeCell (tabOfs tC) (Action.shift 126) = 127 ∧
    (127 : Int) < 2 ^ 8 := by
  refine ⟨?_, by decide, by decide, by norm_num⟩
  have hS : (maxArg0 tC - tabOfs tC + 1).toNat = 128 := by decide
  have htb : tbits tC =
      if (maxArg0 tC - tabOfs tC + 1).toNat.size < 8 then 8
      else if (maxArg0 tC - tabOfs tC + 1).toNat.size < 16 then 16 else 32 := rfl
  rw [htb, hS]
  have h1 : ¬ Nat.size 128 < 8 := by
    intro h
    have h2 := Nat.size_le.1 (by omega : Nat.size 128 ≤ 7)
    norm_num at h2
  have h2 : Nat.size 128 < 16 := by
    have h3 : Nat.size 128 ≤ 15 := Nat.size_le.2 (by norm_num)
    omega
  rw [if_neg h1, if_pos h2]

theorem C2_width_selection_witness :
    1 ≤ encodeCell (tabOfs tW) (Action.shift 2) ∧
    encodeCell (tabOfs tW) (Action.shift 2) < 2 ^ tbits tW := by
  have h := (C2_width_selection tW).2.2.2 (Action.shift 2) (by decide)
  exact ⟨h.1, h.2 (by decide)⟩

end WidthCounterexample

section Translator

/-- A grammar symbol as the translator sees it: name, original numeric value
assigned by the grammar processor, and usage count from the `msu` scan. -/
structure Sym where
  name : String
  value : Int
  used : Nat
deriving DecidableEq, Repr

/-- The names main1 skips when building `msu`:
`if nm == "" || nm == "ε" || nm == "$accept" || nm == "#" { continue }`. -/
def reservedName (nm : String) : Bool :=
  nm == "" || nm == "ε" || nm == "$accept" || nm == "#"

/-- Byte-lexicographic order on rune sequences, the comparison Go's `<`
performs on the (ASCII) lowered names. -/
def strLtB : List Char → List Char → Bool
  | [], [] => false
  | [], _ :: _ => true
  | _ :: _, [] => false
  | a :: as, b :: bs =>
    if a.toNat < b.toNat then true
    else if b.toNat < a.toNat then false
    else strLtB as bs

/-- The lowered character sequence of a name, `strings.ToLower`. -/
def lowerName (s : String) : List Char := s.data.map Char.toLower

/-- The comparator `symsUsed.Less` of main.go: strictly greater usage count
wins; equal counts fall through to the case-insensitive name comparison
`strings.ToLower(s[i].sym.Name) < strings.ToLower(s[j].sym.Name)`. -/
def symsUsedLess (a b : Sym) : Bool :=
  if a.used > b.used then true
  else if a.used < b.used then false
  else strLtB (lowerName a.name) (lowerName b.name)

/-- The dense id order: the non-reserved symbols of the iteration order `l`,
sorted by `sort.Sort(su)` under `symsUsed.Less`; symbol `translateOrder l`
at position `i` receives translated id `i` (`xlat[v.sym.Value] = i`). -/
def translateOrder (l : List Sym) : List Sym :=
  (l.filter (fun s => !reservedName s.name)).mergeSort
    (fun a b => !symsUsedLess b a)

theorem strLtB_asymm : ∀ (a b : List Char),
    strLtB a b = true → strLtB b a = false := by
  intro a
  induction a with
  | nil =>
    intro b h
    cases b with
    | nil => simp [strLtB] at h
    | cons y ys => simp [strLtB]
  | cons x xs ih =>
    intro b h
    cases b with
    | nil => simp [strLtB] at h
    | cons y ys =>
      simp only [strLtB] at h ⊢
      by_cases h1 : x.toNat < y.toNat
      · rw [if_neg (by omega), if_pos h1]
      · by_cases h2 : y.toNat < x.toNat
        · rw [if_neg h1, if_pos h2] at h
          exact absurd h (by simp)
        · rw [if_neg h1, if_neg h2] at h
          rw [if_neg h2, if_neg h1]
          exact ih ys h

theorem strLtB_trans : ∀ (a b c : List Char),
    strLtB a b = true → strLtB b c = true → strLtB a c = true := by
  intro a
  induction a with
  | nil =>
    intro b c hab hbc
    cases c with
    | nil =>
      cases b with
      | nil => simp [strLtB] at hab
      | cons y ys => simp [strLtB] at hbc
    | cons z zs => simp [strLtB]
  | cons x xs ih =>
    intro b c hab hbc
    cases b with
    | nil => simp [strLtB] at hab
    | cons y ys =>
      cases c with
      | nil => simp [strLtB] at hbc
      | cons z zs =>
        simp only [strLtB] at hab hbc ⊢
        by_cases h1 : x.toNat < y.toNat <;> by_cases h2 : y.toNat < z.toNat
        · rw [if_pos (by omega)]
        · by_cases h3 : z.toNat < y.toNat
          · rw [if_neg h2, if_pos h3] at hbc
            exact absurd hbc (by simp)
          · rw [if_pos (by omega)]
        · by_cases h3 : y.toNat < x.toNat
          · rw [if_neg h1, if_pos h3] at hab
            exact absurd hab (by simp)
          · rw [if_pos (by omega)]
        · by_cases h3 : y.toNat < x.toNat
          · rw [if_neg h1, if_pos h3] at hab
            exact absurd hab (by simp)
          · by_cases h4 : z.toNat < y.toNat
            · rw [if_neg h2, if_pos h4] at hbc
              exact absurd hbc (by simp)
            · rw [if_neg h1, if_neg h3] at hab
              rw [if_neg h2, if_neg h4] at hbc
              rw [if_neg (by omega), if_neg (by omega)]
              exact ih ys zs hab hbc

theorem strLtB_conn : ∀ (a b : List Char),
    strLtB a b = false → strLtB b a = false → a = b := by
  intro a
  induction a with
  | nil =>
    intro b hab _
    cases b with
    | nil => rfl
    | cons y ys => simp [strLtB] at hab
  | cons x xs ih =>
    intro b hab hba
    cases b with
    | nil => simp [strLtB] at hba
    | cons y ys =>
      simp only [strLtB] at hab hba
      by_cases h1 : x.toNat < y.toNat
      · rw [if_pos h1] at hab
        exact absurd hab (by simp)
      · by_cases h2 : y.toNat < x.toNat
        · rw [if_pos h2] at hba
          exact absurd hba (by simp)
        · rw [if_neg h1, if_neg h2] at hab
          rw [if_neg h2, if_neg h1] at hba
          have hxy : x = y := by
            have hn : x.toNat = y.toNat := by omega
            have e1 := Char.ofNat_toNat x
            have e2 := Char.ofNat_toNat y
            rw [← e1, ← e2, hn]
          rw [hxy, ih ys hab hba]

theorem symsUsedLess_asymm (a b : Sym) (h : symsUsedLess a b = true) :
    symsUsedLess b a = false := by
  unfold symsUsedLess at h ⊢
  by_cases h1 : a.used > b.used
  · rw [if_neg (by omega), if_pos (by omega)]
  · by_cases h2 : a.used < b.used
    · rw [if_neg h1, if_pos h2] at h
      exact absurd h (by simp)
    · rw [if_neg h1, if_neg h2] at h
      rw [if_neg (by omega), if_neg (by omega)]
      exact strLtB_asymm _ _ h

theorem symsUsedLess_negtrans (a b c : Sym)
    (hba : symsUsedLess b a = false) (hcb : symsUsedLess c b = false) :
    symsUsedLess c a = false := by
  unfold symsUsedLess at hba hcb ⊢
  by_cases h1 : b.used > a.used
  · rw [if_pos h1] at hba
    exact absurd hba (by simp)
  · by_cases h2 : c.used > b.used
    · rw [if_pos h2] at hcb
      exact absurd hcb (by simp)
    · by_cases h3 : c.used > a.used
      · exfalso
        omega
      · rw [if_neg h3]
        by_cases h4 : c.used < a.used
        · rw [if_pos h4]
        · rw [if_neg h4]
          have hbu : b.used = a.used := by omega
          have hcu : c.used = b.used := by omega
          rw [if_neg h1, if_neg (by omega)] at hba
          rw [if_neg h2, if_neg (by omega)] at hcb
          cases hab : strLtB (lowerName a.name) (lowerName b.name) with
          | true =>
            cases hca : strLtB (lowerName c.name) (lowerName a.name) with
            | true => exact absurd (strLtB_trans _ _ _ hca hab) (by simp [hcb])
            | false => rfl
          | false =>
            have heq := strLtB_conn _ _ hab hba
            rw [heq]
            exact hcb

theorem symsUsedLess_total_le (a b : Sym) :
    (!symsUsedLess b a || !symsUsedLess a b) = true := by
  cases h : symsUsedLess b a with
  | false => simp
  | true => simp [symsUsedLess_asymm b a h]

end Translator

section TranslationBijection

/-- C3: symbol translation is a bijection: every symbol whose name is not one
of the four reserved markers receives exactly one translated id in
`[0, N)` — its position in the sorted order — where `N` is the number of
non-reserved symbols, and no two distinct positions hold the same symbol. -/
theorem C3_translation_bijection (l : List Sym) (hnd : l.Nodup) :
    (translateOrder l).length =
      (l.filter (fun s => !reservedName s.name)).length ∧
    (∀ s ∈ l, reservedName s.name = false →
      ∃ i : Fin (translateOrder l).length,
        (translateOrder l).get i = s ∧
        ∀ j : Fin (translateOrder l).length,
          (translateOrder l).get j = s → j = i) ∧
    ∀ i j : Fin (translateOrder l).length,
      i ≠ j → (translateOrder l).get i ≠ (translateOrder l).get j := by
  have hperm : (translateOrder l).Perm
      (l.filter (fun s => !reservedName s.name)) := List.mergeSort_perm _ _
  have hndf : (l.filter (fun s => !reservedName s.name)).Nodup :=
    hnd.filter _
  have hnd2 : (translateOrder l).Nodup := hperm.symm.nodup hndf
  refine ⟨hperm.length_eq, ?_, ?_⟩
  · intro s hs hres
    have hmemf : s ∈ l.filter (fun s => !reservedName s.name) :=
      List.mem_filter.2 ⟨hs, by simp [hres]⟩
    have hmem : s ∈ translateOrder l := hperm.mem_iff.2 hmemf
    obtain ⟨i, hi⟩ := List.mem_iff_get.1 hmem
    refine ⟨i, hi, fun j hj => ?_⟩
    exact (hnd2.get_inj_iff).1 (hj.trans hi.symm)
  · intro i j hij he
    exact hij ((hnd2.get_inj_iff).1 he)

/-- A concrete symbol list (with a reserved `$accept` entry) witnessing the
translation bijection. -/
def lT3 : List Sym := [⟨"$accept", 0, 1⟩, ⟨"a", 1, 2⟩, ⟨"b", 2, 1⟩]

theorem C3_translation_bijection_witness :
    (translateOrder lT3).length =
      (lT3.filter (fun s => !reservedName s.name)).length :=
  (C3_translation_bijection lT3 (by decide)).1

end TranslationBijection

section Determinism

/-- Two distinct symbols with equal usage counts whose names differ only by
case: the comparator ties on them in both directions. -/
def symCapA : Sym := ⟨"A", 1, 5⟩

/-- The lowercase counterpart of `symCapA` with the same usage count. -/
def symLowA : Sym := ⟨"a", 2, 5⟩

/-- C4 counterexample: `symsUsed.Less` is not a total order — two distinct
symbols with equal usage counts and case-insensitively equal names compare
below each other in neither direction, and sorting the two map-iteration
orders of the same symbol set leaves them in their arrival order, so the
two runs assign different ids to the same symbols. -/
theorem C4_determinism_counterexample :
    symsUsedLess symCapA symLowA = false ∧
    symsUsedLess symLowA symCapA = false ∧
    symCapA ≠ symLowA ∧
    ([symCapA, symLowA] : List Sym).Perm [symLowA, symCapA] ∧
    translateOrder [symCapA, symLowA] = [symCapA, symLowA] ∧
    translateOrder [symLowA, symCapA] = [symLowA, symCapA] ∧
    translateOrder [symCapA, symLowA] ≠ translateOrder [symLowA, symCapA] := by
  have e1 : translateOrder [symCapA, symLowA] = [symCapA, symLowA] := by
    unfold translateOrder
    have hf : ([symCapA, symLowA].filter (fun s => !reservedName s.name)) =
        [symCapA, symLowA] := rfl
    rw [hf]
    refine List.mergeSort_of_sorted (List.pairwise_cons.2 ⟨?_, ?_⟩)
    · intro b hb
      rw [List.mem_singleton] at hb
      subst hb
      decide
    · exact List.pairwise_singleton _ _
  have e2 : translateOrder [symLowA, symCapA] = [symLowA, symCapA] := by
    unfold translateOrder
    have hf : ([symLowA, symCapA].filter (fun s => !reservedName s.name)) =
        [symLowA, symCapA] := rfl
    rw [hf]
    refine List.mergeSort_of_sorted (List.pairwise_cons.2 ⟨?_, ?_⟩)
    · intro b hb
      rw [List.mem_singleton] at hb
      subst hb
      decide
    · exact List.pairwise_singleton _ _
  refine ⟨by decide, by decide, by decide, ?_, e1, e2, ?_⟩
  · exact List.Perm.swap symLowA symCapA []
  · rw [e1, e2]
    decide

/-- C4 (amended): when no two distinct symbols tie (equal usage count and
case-insensitively equal name), the comparator is total on the symbol set and
the translator's output is independent of the map-iteration order: any two
permutations of the same duplicate-free symbol list sort to the same id
assignment. -/
theorem C4_deterministic_order (l1 l2 : List Sym) (hp : l1.Perm l2)
    (hnd : l1.Nodup)
    (hties : ∀ a ∈ l1, ∀ b ∈ l1, a ≠ b →
      symsUsedLess a b = true ∨ symsUsedLess b a = true) :
    translateOrder l1 = translateOrder l2 := by
  have hpf : (l1.filter (fun s => !reservedName s.name)).Perm
      (l2.filter (fun s => !reservedName s.name)) := hp.filter _
  have hndf : (l1.filter (fun s => !reservedName s.name)).Nodup :=
    hnd.filter _
  have hm1 : (translateOrder l1).Perm
      (l1.filter (fun s => !reservedName s.name)) := List.mergeSort_perm _ _
  have hm2 : (translateOrder l2).Perm
      (l2.filter (fun s => !reservedName s.name)) := List.mergeSort_perm _ _
  have hmm : (translateOrder l1).Perm (translateOrder l2) :=
    hm1.trans (hpf.trans hm2.symm)
  have htrans : ∀ a b c : Sym, (!symsUsedLess b a) = true →
      (!symsUsedLess c b) = true → (!symsUsedLess c a) = true := by
    intro a b c h1 h2
    rw [Bool.not_eq_true'] at h1 h2 ⊢
    exact symsUsedLess_negtrans a b c h1 h2
  have hs1 := List.sorted_mergeSort htrans symsUsedLess_total_le
    (l1.filter (fun s => !reservedName s.name))
  have hs2 := List.sorted_mergeSort htrans symsUsedLess_total_le
    (l2.filter (fun s => !reservedName s.name))
  have hnd1 : (translateOrder l1).Nodup := hm1.symm.nodup hndf
  have hnd2 : (translateOrder l2).Nodup := hmm.nodup hnd1
  have hmem1 : ∀ s ∈ translateOrder l1, s ∈ l1 := fun s hs =>
    List.mem_of_mem_filter (hm1.mem_iff.1 hs)
  have hmem2 : ∀ s ∈ translateOrder l2, s ∈ l1 := fun s hs =>
    hp.mem_iff.2 (List.mem_of_mem_filter (hm2.mem_iff.1 hs))
  have hstrict : ∀ m : List Sym, (∀ s ∈ m, s ∈ l1) → m.Nodup →
      List.Pairwise (fun a b => (!symsUsedLess b a) = true) m →
      List.Pairwise (fun a b => symsUsedLess a b = true) m := by
    intro m hmem hnd0 hpw
    have hcomb := hpw.and hnd0
    refine hcomb.imp_of_mem ?_
    intro a b ha hb hr
    rcases hties a (hmem a ha) b (hmem b hb) hr.2 with h | h
    · exact h
    · exfalso
      have h1 := hr.1
      rw [Bool.not_eq_true'] at h1
      rw [h] at h1
      exact absurd h1 (by simp)
  have hp1 := hstrict _ hmem1 hnd1 hs1
  have hp2 := hstrict _ hmem2 hnd2 hs2
  exact @List.eq_of_perm_of_sorted Sym (fun a b => symsUsedLess a b = true)
    ⟨fun a b h1 h2 => absurd h2 (by simp [symsUsedLess_asymm a b h1])⟩
    _ _ hmm hp1 hp2

/-- A tie-free pair of symbols used to witness deterministic ordering. -/
def symB : Sym := ⟨"b", 1, 1⟩

/-- A second tie-free symbol, lexically after `symB`. -/
def symC : Sym := ⟨"c", 2, 1⟩

theorem C4_deterministic_order_witness :
    translateOrder [symB, symC] = translateOrder [symC, symB] :=
  C4_deterministic_order [symB, symC] [symC, symB]
    (List.Perm.swap symC symB []) (by decide) (by decide)

end Determinism

section Rules

/-- The pseudo-variable kind of an action part, `part.Tok` of the yacc
scanner: result value, positional value, tagged result, tagged positional,
or plain text. -/
inductive PTok where
  | text
  | dlrDlr
  | dlrNum
  | dlrTagDlr
  | dlrTagNum
deriving DecidableEq, Repr

/-- One fragment of a rule's action source: literal text `Src`, the
pseudo-variable kind `Tok`, the positional number `Num`, and the tag `Tag`. -/
structure ActionPart where
  src : String
  tok : PTok
  num : Nat
  tag : String
deriving DecidableEq, Repr

/-- A grammar rule as main1 consumes it: result symbol value and declared
type, component names, the optional parent's components (present exactly for
synthesized mid-rule action rules) with the parent's `MaxParentDlr` bound,
and the action fragments. -/
structure Rule where
  symValue : Int
  typ : String
  components : List String
  parent : Option (List String)
  maxParentDlr : Nat
  action : List ActionPart
deriving DecidableEq, Repr

/-- Go map lookup `xlat[v]` with the zero value for a missing key. -/
def xlatLookup (xlat : Int → Option Nat) (v : Int) : Nat :=
  (xlat v).getD 0

/-- The reduction catalog `yyReductions`: for every rule index,
`{xlat[rule.Sym.Value], len(rule.Components)}` — the translated result
symbol and the rule's own component count, with no synthesized-rule
override. -/
def reductionsOf (xlat : Int → Option Nat) (rules : List Rule) :
    List (Nat × Nat) :=
  rules.map (fun ru => (xlatLookup xlat ru.symValue, ru.components.length))

/-- The positional bound the action stitcher uses: `max := len(components)`,
overridden by `rule.MaxParentDlr` when `rule.Parent != nil`. -/
def stitchMax (ru : Rule) : Nat :=
  match ru.parent with
  | Option.none => ru.components.length
  | Option.some _ => ru.maxParentDlr

/-- The component frame the stitcher resolves positional references against:
`components = p.Components` for a synthesized rule. -/
def stitchComponents (ru : Rule) : List String :=
  match ru.parent with
  | Option.none => ru.components
  | Option.some pc => pc

/-- C5 (amended): the reduction catalog records, for every rule — synthesized
or not — the translated result symbol and the rule's own component count as
the pop count; the parent's maximum positional bound is not written into the
catalog, it only becomes the stitcher's positional bound `stitchMax`. -/
theorem C5_pop_count_is_components (xlat : Int → Option Nat)
    (rules : List Rule) (i : Nat) (h : i < rules.length)
    (h2 : i < (reductionsOf xlat rules).length) :
    (reductionsOf xlat rules).get ⟨i, h2⟩ =
      (xlatLookup xlat (rules.get ⟨i, h⟩).symValue,
        (rules.get ⟨i, h⟩).components.length) ∧
    ∀ pc, (rules.get ⟨i, h⟩).parent = some pc →
      stitchMax (rules.get ⟨i, h⟩) = (rules.get ⟨i, h⟩).maxParentDlr ∧
      stitchComponents (rules.get ⟨i, h⟩) = pc := by
  constructor
  · unfold reductionsOf
    rw [List.get_map]
  · intro pc hpc
    unfold stitchMax stitchComponents
    rw [hpc]
    exact ⟨rfl, rfl⟩

/-- A synthesized mid-rule action rule: empty own components, parent frame of
two components, parent positional bound 2. -/
def ruleSynth : Rule := ⟨3, "", [], Option.some ["x", "y"], 2, []⟩

/-- The translation used by the catalog counterexamples. -/
def xlatR : Int → Option Nat := fun v => if v = 3 then Option.some 1 else Option.none

/-- C5 counterexample: for a synthesized rule with parent bound 2 and no own
components, the catalog records pop count 0 (its own component count), not
the parent's maximum positional bound 2 the claim asserts. -/
theorem C5_pop_count_counterexample :
    (reductionsOf xlatR [ruleSynth]).head? = Option.some (1, 0) ∧
    ruleSynth.parent ≠ Option.none ∧
    ruleSynth.maxParentDlr = 2 ∧
    (0 : Nat) ≠ 2 := by
  refine ⟨rfl, by decide, rfl, by decide⟩

theorem C5_pop_count_is_components_witness :
    (reductionsOf xlatR [ruleSynth]).get ⟨0, by decide⟩ = (1, 0) :=
  (C5_pop_count_is_components xlatR [ruleSynth] 0 (by decide) (by decide)).1

end Rules

section Stitcher

/-- A stitched output fragment — the arguments main1 hands `f.Format` while
emitting a reduction case: literal text, a field of `rval` (the pending
reduction's payload), or a field of the stack slot `depth` positions below
the top of stack (`stack[sp-depth]`). -/
inductive Frag where
  | lit (s : String)
  | rvalField (field : String)
  | stackRef (depth : Int) (field : String)
deriving DecidableEq, Repr

/-- The symbol-type lookup `p.Syms[name].Type` (zero value for a missing
name). -/
abbrev SymTypes := String → String

/-- The stitcher's rewrite of one action part (the loop
`for _, part := range action`): the literal `part.Src` followed by the
pseudo-variable resolution — `rval.<type>` for `$$`, `stack[sp-(max-num)]`
with the component's type for `$N`, `rval.<tag>` for the tagged result, and
(exactly as the code stands) `stack[sp-num].<tag>` for the tagged
positional form. -/
def stitchPart (symTypes : SymTypes) (typ : String)
    (components : List String) (max : Nat) (p : ActionPart) : List Frag :=
  Frag.lit p.src ::
    match p.tok with
    | PTok.text => []
    | PTok.dlrDlr => [Frag.rvalField typ]
    | PTok.dlrNum =>
        [Frag.stackRef ((max : Int) - (p.num : Int))
          (symTypes (components.getD (p.num - 1) ""))]
    | PTok.dlrTagDlr => [Frag.rvalField p.tag]
    | PTok.dlrTagNum => [Frag.stackRef (p.num : Int) p.tag]

/-- The stitched body of one rule's action: every part rewritten against the
rule's positional bound and component frame (the parent's for synthesized
rules). -/
def stitchAction (symTypes : SymTypes) (ru : Rule) : List Frag :=
  (ru.action.map
    (stitchPart symTypes ru.typ (stitchComponents ru) (stitchMax ru))).flatten

/-- A three-component rule whose action is the single tagged positional
reference `$<t>1`. -/
def ruleTag : Rule :=
  ⟨5, "v", ["x", "y", "z"], Option.none, 0, [⟨"", PTok.dlrTagNum, 1, "t"⟩]⟩

/-- The type environment for the stitcher evaluation. -/
def symTypesU : SymTypes := fun _ => "u"

/-- C6: evaluation of the stitcher at the failing input. For the rule with
three components (positional bound 3), the untagged `$1` resolves to stack
depth `max - 1 = 2`, but the tagged `$<t>1` resolves to depth `1` — the code
emits `stack[sp-num]` instead of the `stack[sp-(max-num)]` the claim (and
yacc's `$<tag>N` semantics, matching the untagged form) requires. -/
theorem C6_stitch_divergence :
    stitchMax ruleTag = 3 ∧
    stitchAction symTypesU ruleTag = [Frag.lit "", Frag.stackRef 1 "t"] ∧
    stitchPart symTypesU "v" ["x", "y", "z"] 3 ⟨"", PTok.dlrNum, 1, ""⟩ =
      [Frag.lit "", Frag.stackRef 2 "u"] ∧
    (1 : Int) ≠ 3 - 1 := by
  refine ⟨rfl, rfl, rfl, by decide⟩

end Stitcher

section Runtime

/-- The tables the emitted parser closes over: `yyParseTab` (stored cell
values per state), `yyTabOfs`, `yyReductions` (total, with Go's zero value
for a missing rule), `yyXErrors`, `yyXLAT`, and the recorded translated ids
of `$end` (the `yyEOFCode`) and of `error` (the `yyError` constant). -/
structure Tables where
  parseTab : List (List Int)
  tabOfs : Int
  reductions : Nat → Nat × Nat
  xerrors : Int × Int → Option String
  xlat : Int → Option Nat
  eofSym : Nat
  errSym : Nat

/-- The mutable state of one yyParse invocation: the frame stack (top first,
each frame reduced to its `yys` state), the pending translated lookahead
(`lookahead = -1` modelled as `none`), the `errState` counter, and the
remaining lexer input. -/
structure PState where
  stack : List Int
  lookahead : Option Nat
  errState : Nat
  input : List Int
deriving DecidableEq, Repr

/-- The token normalization and translation `yylex1`: a non-positive id
reported by the lexer becomes `-1` before translation
(`if n <= 0 { n = -1 }`), and the translation `n = yyXLAT[n]` is a Go map
lookup yielding the zero value `0` for a missing key. -/
def lex1 (xlat : Int → Option Nat) (tok : Int) : Nat :=
  xlatLookup xlat (if tok ≤ 0 then -1 else tok)

/-- Fetch a lookahead: the next raw token of the remaining input, the
exhausted lexer reporting end of input (a non-positive id) forever. -/
def fetch (xlat : Int → Option Nat) (input : List Int) : Nat × List Int :=
  match input with
  | [] => (lex1 xlat 0, [])
  | tok :: rest => (lex1 xlat tok, rest)

/-- The error-message resolution of the `errState == 0` arm: the exact
`yyXError{state, lookahead}` entry first, then the wildcard
`yyXError{state, -1}`, then the hardcoded "syntax error". -/
def resolveErrMsg (xerrors : Int × Int → Option String) (state : Int)
    (la : Nat) : String :=
  match xerrors (state, (la : Int)) with
  | Option.some msg => msg
  | Option.none =>
      match xerrors (state, -1) with
      | Option.some msg => msg
      | Option.none => "syntax error"

/-- The post-reduction goto of yyParse:
`rval.yys = int(yyParseTab[stack[sp-n].yys][x]) + yyTabOfs` — indexing the
exposed state's row at the result symbol id with no bounds check (`none`
models the Go index-out-of-range panic) and adding the offset
unconditionally, with no zero/"empty" guard. -/
def gotoLookup (T : Tables) (exposed : Int) (x : Nat) : Option Int :=
  if hs : 0 ≤ exposed ∧ exposed.toNat < T.parseTab.length then
    let grow := T.parseTab.get ⟨exposed.toNat, hs.2⟩
    if hx : x < grow.length then Option.some (grow.get ⟨x, hx⟩ + T.tabOfs)
    else Option.none
  else Option.none

/-- Result of the recovery stack unwind (`for sp != 0` in the
`case 1, 2:` arm). -/
inductive UnwindRes where
  | hit (stack : List Int)
  | fail
  | fault
deriving DecidableEq, Repr

/-- The unwind loop: while the stack pointer is nonzero, inspect the top
state's row at the reserved `error` symbol with
`arg = int(row[yyError]) + yyTabOfs` (offset added unconditionally); a
nonzero `arg` is a hit and pushes it onto the current stack, otherwise the
top frame is popped. The bottom frame is never inspected (`sp != 0` fails
first), and an out-of-range state index is a Go panic. -/
def unwind (T : Tables) : List Int → UnwindRes
  | [] => UnwindRes.fail
  | [_] => UnwindRes.fail
  | s :: rest =>
    if hs : 0 ≤ s ∧ s.toNat < T.parseTab.length then
      let row := T.parseTab.get ⟨s.toNat, hs.2⟩
      if h : T.errSym < row.length then
        if row.get ⟨T.errSym, h⟩ + T.tabOfs ≠ 0 then
          UnwindRes.hit ((row.get ⟨T.errSym, h⟩ + T.tabOfs) :: s :: rest)
        else unwind T rest
      else unwind T rest
    else UnwindRes.fault

/-- One outcome of a single iteration of the `next:` loop, together with the
diagnostic message handed to the caller's error sink during that iteration,
if any. -/
inductive StepRes where
  | cont (c : PState) (msg : Option String)
  | done (code : Nat) (msg : Option String)
  | fault
deriving DecidableEq, Repr

/-- The body of the `next:` loop once the lookahead is available: the action
lookup `decodeRow` on the top state's row, then the shift (`arg > 0`),
reduce (`arg < 0`), accept (`state == 1`), and error arms of yyParse,
including the four-phase recovery switch on `errState`. -/
def stepLA (T : Tables) (stack : List Int) (errState : Nat) (la : Nat)
    (inp : List Int) : StepRes :=
  match stack with
  | [] => StepRes.fault
  | st :: _ =>
    if hs : 0 ≤ st ∧ st.toNat < T.parseTab.length then
      let row := T.parseTab.get ⟨st.toNat, hs.2⟩
      let arg := decodeRow T.tabOfs row la
      if 0 < arg then
        StepRes.cont ⟨arg :: stack, Option.none, errState - 1, inp⟩
          Option.none
      else if arg < 0 then
        let p := T.reductions (-arg).toNat
        if hn : p.2 < stack.length then
          match gotoLookup T (stack.get ⟨p.2, hn⟩) p.1 with
          | Option.some newSt =>
              StepRes.cont ⟨newSt :: stack.drop p.2, Option.some la,
                errState, inp⟩ Option.none
          | Option.none => StepRes.fault
        else StepRes.fault
      else if st = 1 then StepRes.done 0 Option.none
      else
        match errState with
        | 0 =>
          match unwind T stack with
          | UnwindRes.hit stk =>
              StepRes.cont ⟨stk, Option.some la, 3, inp⟩
                (Option.some (resolveErrMsg T.xerrors st la))
          | UnwindRes.fail =>
              StepRes.done 1 (Option.some (resolveErrMsg T.xerrors st la))
          | UnwindRes.fault => StepRes.fault
        | 1 =>
          match unwind T stack with
          | UnwindRes.hit stk =>
              StepRes.cont ⟨stk, Option.some la, 3, inp⟩ Option.none
          | UnwindRes.fail => StepRes.done 1 Option.none
          | UnwindRes.fault => StepRes.fault
        | 2 =>
          match unwind T stack with
          | UnwindRes.hit stk =>
              StepRes.cont ⟨stk, Option.some la, 3, inp⟩ Option.none
          | UnwindRes.fail => StepRes.done 1 Option.none
          | UnwindRes.fault => StepRes.fault
        | 3 =>
          if la = T.eofSym then StepRes.done 1 Option.none
          else StepRes.cont ⟨stack, Option.none, 3, inp⟩ Option.none
        | _ + 4 => StepRes.done 1 Option.none
    else StepRes.fault

/-- One iteration of the `next:` loop: fetch a lookahead when none is
pending (`if lookahead < 0 { lookahead = yylex1(...) }`), then dispatch. -/
def step (T : Tables) (c : PState) : StepRes :=
  match c.lookahead with
  | Option.some la => stepLA T c.stack c.errState la c.input
  | Option.none => stepLA T c.stack c.errState (fetch T.xlat c.input).1
      (fetch T.xlat c.input).2

/-- The initial state of yyParse: `stack := []yySymType{{}}` (one zero
frame), `lookahead := -1`, `errState := 0`. -/
def initP (input : List Int) : PState :=
  ⟨[0], Option.none, 0, input⟩

/-- Run at most `n` iterations of the loop; a `cont` result means the parse
is still running after `n` iterations. -/
def stepN (T : Tables) : Nat → PState → StepRes
  | 0, c => StepRes.cont c Option.none
  | n + 1, c =>
    match step T c with
    | StepRes.cont c2 _ => stepN T n c2
    | StepRes.done r m => StepRes.done r m
    | StepRes.fault => StepRes.fault

/-- The return value of yyParse when the run has finished. -/
def resultCode : StepRes → Option Nat
  | StepRes.done r _ => Option.some r
  | _ => Option.none

theorem stepN_done_mono (T : Tables) (n k : Nat) (c : PState) (r : Nat)
    (m : Option String) (h : stepN T n c = StepRes.done r m) :
    stepN T (n + k) c = StepRes.done r m := by
  induction n generalizing c with
  | zero => simp [stepN] at h
  | succ n ih =>
    rw [stepN] at h
    have hnk : n + 1 + k = (n + k) + 1 := by omega
    rw [hnk, stepN]
    cases hstep : step T c with
    | cont c2 m2 =>
      rw [hstep] at h
      exact ih c2 h
    | done r2 m2 =>
      rw [hstep] at h
      exact h
    | fault =>
      rw [hstep] at h
      exact absurd h (by simp)

end Runtime

section ErrorMessages

/-- The diagnostic message a step hands to the caller's `Error` sink. -/
def stepMsg : StepRes → Option String
  | StepRes.cont _ m => m
  | StepRes.done _ m => m
  | StepRes.fault => Option.none

/-- C7: when the automaton reports a syntax error for a (state, lookahead)
pair, an exact `yyXError{state, lookahead}` entry wins, else the wildcard
`yyXError{state, -1}` entry, else the hardcoded "syntax error"; and the
resolution happens at run time — a step from an actionless (state,
lookahead) pair in `errState == 0` (the first error of the episode) passes
exactly this resolved message to the error sink, whether or not recovery
then succeeds. -/
theorem C7_error_message_priority (T : Tables) (st : Int) (la : Nat)
    (rest : List Int) (inp : List Int)
    (hs : 0 ≤ st ∧ st.toNat < T.parseTab.length)
    (hdec : decodeRow T.tabOfs (T.parseTab.get ⟨st.toNat, hs.2⟩) la = 0)
    (hst1 : st ≠ 1) :
    (∀ m, T.xerrors (st, (la : Int)) = Option.some m →
      resolveErrMsg T.xerrors st la = m) ∧
    (T.xerrors (st, (la : Int)) = Option.none →
      ∀ m, T.xerrors (st, -1) = Option.some m →
        resolveErrMsg T.xerrors st la = m) ∧
    (T.xerrors (st, (la : Int)) = Option.none →
      T.xerrors (st, -1) = Option.none →
        resolveErrMsg T.xerrors st la = "syntax error") ∧
    (unwind T (st :: rest) ≠ UnwindRes.fault →
      stepMsg (stepLA T (st :: rest) 0 la inp) =
        Option.some (resolveErrMsg T.xerrors st la)) ∧
    (∀ e, e ≠ 0 → stepMsg (stepLA T (st :: rest) e la inp) = Option.none) := by
  have hbody : ∀ e, stepLA T (st :: rest) e la inp =
      (if st = 1 then StepRes.done 0 Option.none
      else
        match e with
        | 0 =>
          match unwind T (st :: rest) with
          | UnwindRes.hit stk =>
              StepRes.cont ⟨stk, Option.some la, 3, inp⟩
                (Option.some (resolveErrMsg T.xerrors st la))
          | UnwindRes.fail =>
              StepRes.done 1 (Option.some (resolveErrMsg T.xerrors st la))
          | UnwindRes.fault => StepRes.fault
        | 1 =>
          match unwind T (st :: rest) with
          | UnwindRes.hit stk =>
              StepRes.cont ⟨stk, Option.some la, 3, inp⟩ Option.none
          | UnwindRes.fail => StepRes.done 1 Option.none
          | UnwindRes.fault => StepRes.fault
        | 2 =>
          match unwind T (st :: rest) with
          | UnwindRes.hit stk =>
              StepRes.cont ⟨stk, Option.some la, 3, inp⟩ Option.none
          | UnwindRes.fail => StepRes.done 1 Option.none
          | UnwindRes.fault => StepRes.fault
        | 3 =>
          if la = T.eofSym then StepRes.done 1 Option.none
          else StepRes.cont ⟨st :: rest, Option.none, 3, inp⟩ Option.none
        | _ + 4 => StepRes.done 1 Option.none) := by
    intro e
    simp only [stepLA]
    rw [dif_pos hs]
    simp only [hdec]
    norm_num
  refine ⟨?_, ?_, ?_, ?_, ?_⟩
  · intro m hm
    unfold resolveErrMsg
    rw [hm]
  · intro h1 m hm
    unfold resolveErrMsg
    rw [h1, hm]
  · intro h1 h2
    unfold resolveErrMsg
    rw [h1, h2]
  · intro hunw
    rw [hbody 0, if_neg hst1]
    cases hu : unwind T (st :: rest) with
    | hit stk => rfl
    | fail => rfl
    | fault => exact absurd hu hunw
  · intro e he
    rw [hbody e, if_neg hst1]
    match e, he with
    | 1, _ =>
      cases hu : unwind T (st :: rest) <;> rfl
    | 2, _ =>
      cases hu : unwind T (st :: rest) <;> rfl
    | 3, _ =>
      show stepMsg (if la = T.eofSym then StepRes.done 1 Option.none
        else StepRes.cont ⟨st :: rest, Option.none, 3, inp⟩ Option.none) =
          Option.none
      by_cases hla : la = T.eofSym
      · rw [if_pos hla]
        rfl
      · rw [if_neg hla]
        rfl
    | n + 4, _ => rfl

end ErrorMessages

section ErrorMessageWitness

/-- Concrete tables with an exact error example for (state 0, lookahead 0)
and a wildcard example for state 0. -/
def T7 : Tables where
  parseTab := [[0], [], [0]]
  tabOfs := -1
  reductions := fun _ => (0, 0)
  xerrors := fun k =>
    if k = ((0 : Int), (0 : Int)) then Option.some "unexpected zero"
    else if k = ((0 : Int), (-1 : Int)) then Option.some "state zero confused"
    else Option.none
  xlat := fun _ => Option.none
  eofSym := 0
  errSym := 9

theorem C7_error_message_priority_witness :
    resolveErrMsg T7.xerrors 0 0 = "unexpected zero" ∧
    stepMsg (stepLA T7 [0] 0 0 []) =
      Option.some (resolveErrMsg T7.xerrors 0 0) := by
  have h := C7_error_message_priority T7 0 0 [] [] (by decide) (by decide)
    (by decide)
  exact ⟨h.1 "unexpected zero" rfl, h.2.2.2.1 (by decide)⟩

end ErrorMessageWitness

section LexNormalization

/-- C8 (amended): a non-positive lexer id is replaced by `-1` before
translation, so it translates to whatever the table maps `-1` to (the
`$end` entry, hence the EOF-class id); but a positive id missing from the
translation table is not normalized — the Go map lookup yields the zero
value `0`, the id of the most frequently used symbol, not the EOF id. -/
theorem C8_lex_normalization (xlat : Int → Option Nat) (tok : Int) :
    (tok ≤ 0 → lex1 xlat tok = xlatLookup xlat (-1)) ∧
    (∀ e, xlat (-1) = Option.some e → tok ≤ 0 → lex1 xlat tok = e) ∧
    (0 < tok → xlat tok = Option.none → lex1 xlat tok = 0) := by
  refine ⟨?_, ?_, ?_⟩
  · intro h
    unfold lex1
    rw [if_pos h]
  · intro e he h
    unfold lex1
    rw [if_pos h]
    unfold xlatLookup
    rw [he]
    rfl
  · intro h hn
    unfold lex1
    rw [if_neg (by omega)]
    unfold xlatLookup
    rw [hn]
    rfl

/-- A translation table mapping `$end`'s original value `-1` to translated
id 1 and original token 5 to translated id 0. -/
def xlatC8 : Int → Option Nat := fun v =>
  if v = -1 then Option.some 1
  else if v = 5 then Option.some 0 else Option.none

/-- C8 counterexample: with the EOF-class id being 1, the unknown positive
token 7 translates to 0 — the most-used symbol's id, not the EOF id. -/
theorem C8_lex_normalization_counterexample :
    xlatC8 (-1) = Option.some 1 ∧
    lex1 xlatC8 (-2) = 1 ∧
    lex1 xlatC8 7 = 0 ∧
    (0 : Nat) ≠ 1 := by
  refine ⟨rfl, rfl, rfl, by decide⟩

theorem C8_lex_normalization_witness :
    lex1 xlatC8 (-2) = 1 ∧ lex1 xlatC8 7 = 0 :=
  ⟨(C8_lex_normalization xlatC8 (-2)).2.1 1 rfl (by decide),
    (C8_lex_normalization xlatC8 7).2.2 (by decide) rfl⟩

end LexNormalization

section GotoLookup

/-- C10: the post-reduction goto lookup is only well-defined when the exposed
state's row materializes a cell for the rule's result symbol: unlike the
guarded normal action lookup (which treats both cases as "empty"), the goto
line indexes the row unconditionally and always adds the offset — a stored
`0` therefore becomes the nonzero offset value as the new state, and an id
beyond the row's length is an out-of-range access, i.e. a runtime fault of
the generated parser, which propagates to the reduce arm of the automaton. -/
theorem C10_goto_completeness_precondition (T : Tables) (exposed : Int)
    (x : Nat) (hs : 0 ≤ exposed ∧ exposed.toNat < T.parseTab.length)
    (hofs : T.tabOfs ≤ -1) :
    (∀ hx : x < (T.parseTab.get ⟨exposed.toNat, hs.2⟩).length,
      (T.parseTab.get ⟨exposed.toNat, hs.2⟩).get ⟨x, hx⟩ = 0 →
        gotoLookup T exposed x = Option.some T.tabOfs ∧
        T.tabOfs ≠ 0 ∧
        decodeRow T.tabOfs (T.parseTab.get ⟨exposed.toNat, hs.2⟩) x = 0) ∧
    ((T.parseTab.get ⟨exposed.toNat, hs.2⟩).length ≤ x →
      gotoLookup T exposed x = Option.none ∧
      decodeRow T.tabOfs (T.parseTab.get ⟨exposed.toNat, hs.2⟩) x = 0) ∧
    (∀ (st : Int) (rest : List Int) (e la : Nat) (inp : List Int) (n : Nat)
      (hn : n < (st :: rest).length)
      (hst : 0 ≤ st ∧ st.toNat < T.parseTab.length),
      (st :: rest).get ⟨n, hn⟩ = exposed →
      decodeRow T.tabOfs (T.parseTab.get ⟨st.toNat, hst.2⟩) la < 0 →
      T.reductions
        (-(decodeRow T.tabOfs (T.parseTab.get ⟨st.toNat, hst.2⟩) la)).toNat =
          (x, n) →
      gotoLookup T exposed x = Option.none →
      stepLA T (st :: rest) e la inp = StepRes.fault) := by
  refine ⟨?_, ?_, ?_⟩
  · intro hx hzero
    unfold gotoLookup
    rw [dif_pos hs]
    refine ⟨?_, by omega, ?_⟩
    · rw [dif_pos hx, hzero]
      simp
    · unfold decodeRow
      rw [dif_pos hx, hzero]
      simp
  · intro hlen
    constructor
    · unfold gotoLookup
      rw [dif_pos hs]
      rw [dif_neg (by omega)]
    · unfold decodeRow
      rw [dif_neg (by omega)]
  · intro st rest e la inp n hn hst hget harg hred hnone
    simp only [stepLA]
    rw [dif_pos hst]
    rw [if_neg (by omega), if_pos harg]
    simp only [hred]
    rw [dif_pos hn]
    rw [hget, hnone]

end GotoLookup

section GotoWitness

/-- Tables for the goto-lookup witness: state 0's row stores `0` at symbol 0
and has no cell at symbol 5. -/
def T10 : Tables where
  parseTab := [[0, 3], []]
  tabOfs := -2
  reductions := fun _ => (0, 0)
  xerrors := fun _ => Option.none
  xlat := fun _ => Option.none
  eofSym := 0
  errSym := 9

theorem C10_goto_completeness_precondition_witness :
    gotoLookup T10 0 0 = Option.some T10.tabOfs ∧ T10.tabOfs ≠ 0 ∧
    gotoLookup T10 0 5 = Option.none := by
  have h5 := C10_goto_completeness_precondition T10 0 5 (by decide) (by decide)
  have h0 := C10_goto_completeness_precondition T10 0 0 (by decide) (by decide)
  refine ⟨?_, ?_, ?_⟩
  · exact (h0.1 (by decide) (by decide)).1
  · exact (h0.1 (by decide) (by decide)).2.1
  · exact (h5.2.1 (by decide)).1

end GotoWitness

section Termination

/-- Translation for the loop counterexample: `$end` (value `-1`) gets id 3,
every real token gets id 0. -/
def xlat1 : Int → Option Nat := fun v =>
  if v = -1 then Option.some 3 else Option.some 0

/-- An adversarial table with a unit-rule reduce/goto cycle: state 0 shifts
symbol 0 to state 2 and sends goto symbol 1 back to state 2; state 2 reduces
rule 1 on symbol 0; rule 1 pops one frame and produces symbol 1. -/
def T1 : Tables where
  parseTab := [[4, 4], [], [1]]
  tabOfs := -2
  reductions := fun r => if r = 1 then (1, 1) else (0, 0)
  xerrors := fun _ => Option.none
  xlat := xlat1
  eofSym := 3
  errSym := 5

/-- The configuration the cycle revisits: stack `[2, 0]`, pending lookahead
0, two tokens consumed. -/
def loopState : PState := ⟨[2, 0], Option.some 0, 0, []⟩

set_option maxRecDepth 4000 in
/-- C9 counterexample: on table `T1` the automaton reaches `loopState` after
two steps and then steps from `loopState` back to `loopState` exactly — the
run never terminates; in particular it is still running after 300 steps on
an input of length 2 with maximal stack depth 2. -/
theorem C9_termination_counterexample :
    stepN T1 2 (initP [5, 5]) = StepRes.cont loopState Option.none ∧
    step T1 loopState = StepRes.cont loopState Option.none ∧
    stepN T1 300 (initP [5, 5]) = StepRes.cont loopState Option.none := by
  refine ⟨by decide, by decide, by decide⟩

/-- Translation for the recovery table: every non-positive id (hence `$end`)
gets the EOF id 0, every real token gets id 2. -/
def xlat0 : Int → Option Nat := fun v =>
  if v < 0 then Option.some 0 else Option.some 2

/-- A table exercising the whole recovery protocol: state 0 shifts token 2
to state 2 and has no other action; state 2 has only an error-shift to
state 3; state 3 has no action at all, so every token is discarded until
EOF. -/
def T0 : Tables where
  parseTab := [[0, 0, 4], [], [0, 5], []]
  tabOfs := -2
  reductions := fun _ => (0, 0)
  xerrors := fun _ => Option.none
  xlat := xlat0
  eofSym := 0
  errSym := 1

theorem lex0_eval (t : Int) : lex1 xlat0 t = if t ≤ 0 then 0 else 2 := by
  unfold lex1 xlatLookup xlat0
  by_cases h : t ≤ 0
  · rw [if_pos h, if_pos h]
    norm_num
  · rw [if_neg h, if_neg h, if_neg (by omega : ¬ t < 0)]
    rfl

theorem stepN_succ (T : Tables) (n : Nat) (c : PState) :
    stepN T (n + 1) c =
      match step T c with
      | StepRes.cont c2 _ => stepN T n c2
      | StepRes.done r m => StepRes.done r m
      | StepRes.fault => StepRes.fault := rfl

theorem stepLA_T0_init_err (inp : List Int) :
    stepLA T0 [0] 0 0 inp = StepRes.done 1 (Option.some "syntax error") := rfl

theorem stepLA_T0_init_shift (inp : List Int) :
    stepLA T0 [0] 0 2 inp =
      StepRes.cont ⟨[2, 0], Option.none, 0, inp⟩ Option.none := rfl

theorem stepLA_T0_rec0 (inp : List Int) :
    stepLA T0 [2, 0] 0 0 inp =
      StepRes.cont ⟨[3, 2, 0], Option.some 0, 3, inp⟩
        (Option.some "syntax error") := rfl

theorem stepLA_T0_rec2 (inp : List Int) :
    stepLA T0 [2, 0] 0 2 inp =
      StepRes.cont ⟨[3, 2, 0], Option.some 2, 3, inp⟩
        (Option.some "syntax error") := rfl

theorem stepLA_T0_disc0 (inp : List Int) :
    stepLA T0 [3, 2, 0] 3 0 inp = StepRes.done 1 Option.none := rfl

theorem stepLA_T0_disc2 (inp : List Int) :
    stepLA T0 [3, 2, 0] 3 2 inp =
      StepRes.cont ⟨[3, 2, 0], Option.none, 3, inp⟩ Option.none := rfl

theorem step_T0_D_nil :
    step T0 ⟨[3, 2, 0], Option.none, 3, []⟩ = StepRes.done 1 Option.none := rfl

theorem step_T0_D_cons (u : Int) (us : List Int) :
    step T0 ⟨[3, 2, 0], Option.none, 3, u :: us⟩ =
      if u ≤ 0 then StepRes.done 1 Option.none
      else StepRes.cont ⟨[3, 2, 0], Option.none, 3, us⟩ Option.none := by
  show stepLA T0 [3, 2, 0] 3 (lex1 xlat0 u) us = _
  rw [lex0_eval]
  by_cases h : u ≤ 0
  · rw [if_pos h, if_pos h]
    exact stepLA_T0_disc0 us
  · rw [if_neg h, if_neg h]
    exact stepLA_T0_disc2 us

/-- The discard loop terminates: from the post-recovery configuration the
automaton fails within one step per remaining input token plus one for the
final EOF. -/
theorem discard_term (us : List Int) : ∀ n, us.length + 1 ≤ n →
    stepN T0 n ⟨[3, 2, 0], Option.none, 3, us⟩ =
      StepRes.done 1 Option.none := by
  induction us with
  | nil =>
    intro n hn
    obtain ⟨m, rfl⟩ : ∃ m, n = m + 1 := ⟨n - 1, by omega⟩
    rw [stepN_succ, step_T0_D_nil]
  | cons u us ih =>
    intro n hn
    obtain ⟨m, rfl⟩ : ∃ m, n = m + 1 := ⟨n - 1, by omega⟩
    rw [stepN_succ, step_T0_D_cons]
    by_cases h : u ≤ 0
    · rw [if_pos h]
    · rw [if_neg h]
      show stepN T0 m ⟨[3, 2, 0], Option.none, 3, us⟩ = StepRes.done 1 Option.none
      refine ih m ?_
      simp only [List.length_cons] at hn
      omega

/-- C9 (amended): the recovery protocol itself always terminates — on the
recovery-exercising table `T0`, every finite input leads the automaton
through at most one shift, one unwind that either fails on the bottom frame
or pushes the error-shift state, and one discard per remaining token, so the
whole run returns failure within `|input| + 6` steps, a bound linear in the
input length (stack depth stays ≤ 3). Termination for arbitrary tables is
refuted by the reduce/goto cycle of `T1`. -/
theorem C9_recovery_termination (input : List Int) :
    resultCode (stepN T0 (input.length + 6) (initP input)) =
      Option.some 1 := by
  cases input with
  | nil =>
    have h1 : step T0 (initP []) =
        StepRes.done 1 (Option.some "syntax error") := rfl
    rw [show (([] : List Int).length + 6) = 5 + 1 from rfl, stepN_succ, h1]
    rfl
  | cons t ts =>
    have hlen : (t :: ts).length + 6 = (ts.length + 6) + 1 := by
      simp only [List.length_cons]
    rw [hlen, stepN_succ]
    have hfetch : step T0 (initP (t :: ts)) =
        stepLA T0 [0] 0 (lex1 xlat0 t) ts := rfl
    rw [hfetch, lex0_eval]
    by_cases ht : t ≤ 0
    · rw [if_pos ht, stepLA_T0_init_err]
      rfl
    · rw [if_neg ht, stepLA_T0_init_shift]
      show resultCode
        (stepN T0 (ts.length + 6) ⟨[2, 0], Option.none, 0, ts⟩) =
          Option.some 1
      cases ts with
      | nil =>
        have h2 : step T0 ⟨[2, 0], Option.none, 0, []⟩ =
            StepRes.cont ⟨[3, 2, 0], Option.some 0, 3, []⟩
              (Option.some "syntax error") := rfl
        rw [show (([] : List Int).length + 6) = 5 + 1 from rfl, stepN_succ, h2]
        show resultCode
          (stepN T0 5 ⟨[3, 2, 0], Option.some 0, 3, []⟩) = Option.some 1
        have h3 : step T0 ⟨[3, 2, 0], Option.some 0, 3, []⟩ =
            StepRes.done 1 Option.none := stepLA_T0_disc0 []
        rw [show (5 : Nat) = 4 + 1 from rfl, stepN_succ, h3]
        rfl
      | cons u us =>
        have h2 : step T0 ⟨[2, 0], Option.none, 0, u :: us⟩ =
            StepRes.cont
              ⟨[3, 2, 0], Option.some (if u ≤ 0 then 0 else 2), 3, us⟩
              (Option.some "syntax error") := by
          show stepLA T0 [2, 0] 0 (lex1 xlat0 u) us = _
          rw [lex0_eval]
          by_cases hu : u ≤ 0
          · rw [if_pos hu]
            exact stepLA_T0_rec0 us
          · rw [if_neg hu]
            exact stepLA_T0_rec2 us
        have hlen2 : (u :: us).length + 6 = (us.length + 6) + 1 := by
          simp only [List.length_cons]
        rw [hlen2, stepN_succ, h2]
        show resultCode
          (stepN T0 (us.length + 6)
            ⟨[3, 2, 0], Option.some (if u ≤ 0 then 0 else 2), 3, us⟩) =
            Option.some 1
        by_cases hu : u ≤ 0
        · rw [if_pos hu]
          have h3 : step T0 ⟨[3, 2, 0], Option.some 0, 3, us⟩ =
              StepRes.done 1 Option.none := stepLA_T0_disc0 us
          obtain ⟨m, hm⟩ : ∃ m, us.length + 6 = m + 1 :=
            ⟨us.length + 5, by omega⟩
          rw [hm, stepN_succ, h3]
          rfl
        · rw [if_neg hu]
          have h3 : step T0 ⟨[3, 2, 0], Option.some 2, 3, us⟩ =
              StepRes.cont ⟨[3, 2, 0], Option.none, 3, us⟩ Option.none :=
            stepLA_T0_disc2 us
          obtain ⟨m, hm⟩ : ∃ m, us.length + 6 = m + 1 :=
            ⟨us.length + 5, by omega⟩
          rw [hm, stepN_succ, h3]
          show resultCode
            (stepN T0 m ⟨[3, 2, 0], Option.none, 3, us⟩) = Option.some 1
          rw [discard_term us m (by omega)]
          rfl

end Termination
